import Mathlib

/-!
# Verification of the probe-experiment pipeline (`bin/run_probe_exp.py`)

Shallow embedding of the probe-experiment driver. Python floats are
modelled as rationals, numpy arrays as lists (matrices as lists of rows),
and the filesystem as an explicit read-only structure. Python's stable
sorts (`sorted`, `list.sort`, and the sorted set backing a pyannote
`Timeline`) are modelled with `List.insertionSort`, which is also a stable
sort and hence produces the same output for the same total preorder.
-/

namespace ProbeExp

/-! ## Phone taxonomy (run_probe_exp.py lines 29-54) -/

def STOPS : List String := ["p", "t", "k", "b", "d", "g"]

def CLOSURES : List String := ["pcl", "tcl", "kcl", "bcl", "dcl", "gcl"]

def FRICATIVES : List String := ["ch", "th", "f", "s", "sh", "jh", "dh", "v", "z", "zh", "hh"]

def VOWELS : List String :=
  ["aa", "ae", "ah", "ao", "aw", "ax", "ax-h", "axr", "ay",
   "eh", "el", "em", "en", "eng", "er", "ey", "ih", "ix",
   "iy", "ow", "oy", "uh", "uw", "ux"]

def GLIDES : List String := ["w", "y"]

def LIQUIDS : List String := ["l", "r"]

def NASALS : List String := ["m", "n", "ng", "nx"]

def OTHER : List String := ["dx", "hv", "q"]

def VOCALIC : List String := VOWELS ++ GLIDES ++ LIQUIDS ++ NASALS

def SPEECH : List String :=
  STOPS ++ CLOSURES ++ FRICATIVES ++ VOWELS ++ GLIDES ++ LIQUIDS ++ NASALS ++ OTHER

/-- Mapping from task names to target labels (`TASK_TARGETS`). -/
def TASK_TARGETS : String → List String
  | "sad" => SPEECH
  | "vowel" => VOWELS
  | "sonorant" => VOCALIC
  | "fricative" => FRICATIVES
  | _ => []

def VALID_TASK_NAMES : List String := ["sad", "vowel", "sonorant", "fricative"]

def VALID_CLASSIFIER_NAMES : List String := ["logistic", "max_margin", "nnet"]

/-! ## Data model -/

/-- `Utterance = namedtuple('Utterance', ['uri', 'feats_path', 'phones_path'])`. -/
structure Utterance where
  uri : String
  feats_path : String
  phones_path : String
deriving DecidableEq, Repr

/-- One whitespace-delimited row of a `.lab` annotation file:
`(onset, offset, label)`. -/
structure Row where
  onset : ℚ
  offset : ℚ
  label : String
deriving DecidableEq, Repr

/-- Read-only model of the external filesystem the script consumes:
which paths exist, the stripped lines of a URI-list file, the contents of
a `.npy` feature file (frames x feature-dim), and the parsed rows of a
`.lab` annotation file. -/
structure FS where
  pathExists : String → Bool
  urisOf : String → List String
  npyOf : String → List (List ℚ)
  labOf : String → List Row

/-! ## UtteranceCatalog (`load_utterances`, lines 145-165) -/

/-- The loop body of `load_utterances`: check for the corresponding
`.npy`/`.lab` files and keep the utterance only if both exist. -/
def resolveUri (fs : FS) (feats_dir phones_dir uri : String) : Option Utterance :=
  let feats_path := feats_dir ++ "/" ++ uri ++ ".npy"
  let phones_path := phones_dir ++ "/" ++ uri ++ ".lab"
  if fs.pathExists feats_path && fs.pathExists phones_path then
    some ⟨uri, feats_path, phones_path⟩
  else none

/-- `load_utterances(uris_file, feats_dir, phones_dir)`: the URI list is
read as a set (modelled by `dedup`); a URI is kept only if both its
feature file and its label file exist.  The result is a plain list: a
missing file silently drops the utterance and an empty result is not an
error. -/
def load_utterances (fs : FS) (uris_file feats_dir phones_dir : String) : List Utterance :=
  let uris := (fs.urisOf uris_file).dedup
  uris.filterMap (resolveUri fs feats_dir phones_dir)

/-! ## ConfigModel (`load_task_config`, lines 168-223) -/

/-- One partition entry of `train_data` / `test_data`. -/
structure DsetSpec where
  uris : String
  feats : String
  phones : String
  step : ℚ
deriving DecidableEq, Repr

/-- `Datasets = namedtuple('Dataset', ['name', 'utterances', 'step'])`. -/
structure Datasets where
  name : String
  utterances : List Utterance
  step : ℚ
deriving DecidableEq, Repr

/-- `Task = namedtuple('Task', [...])`. -/
structure Task where
  name : String
  target_labels : List String
  context_size : ℕ
  classifier : String
  batch_size : ℕ
deriving DecidableEq, Repr

/-- Parsed YAML config document, before validation.  A missing key is
`none` (the code supplies defaults via `config.get`). -/
structure RawConfig where
  batch_size : Option ℕ
  context_size : Option ℕ
  classifier : Option String
  task : Option String
  train_data : List (String × DsetSpec)
  test_data : List (String × DsetSpec)

/-- `ConfigError`, carrying the invalid value and the valid set named in
the message. -/
inductive ConfigError where
  | invalidClassifier (value : String) (valid : List String)
  | invalidTask (value : String) (valid : List String)
deriving DecidableEq, Repr

/-- The order Python uses to compare strings: lexicographic on the code
points. -/
def strLE (a b : String) : Prop := a.data ≤ b.data

instance : DecidableRel strLE := fun a b => by unfold strLE; infer_instance

instance : IsTotal String strLE := ⟨fun a b => le_total a.data b.data⟩

instance : IsTrans String strLE := ⟨fun _ _ _ => le_trans⟩

instance : IsRefl String strLE := ⟨fun a => le_refl a.data⟩

/-- `utterances.sort(key=attrgetter('uri'))` — a stable sort by URI. -/
def sortByUri (utts : List Utterance) : List Utterance :=
  List.insertionSort (fun a b => strLE a.uri b.uri) utts

/-- `_load_dsets(d, test=False)` inside `load_task_config`: load each
partition's utterances; test partitions are additionally sorted by URI. -/
def loadDsets (fs : FS) (d : List (String × DsetSpec)) (test : Bool) : List Datasets :=
  d.map fun p =>
    let utterances := load_utterances fs p.2.uris p.2.feats p.2.phones
    let utterances := if test then sortByUri utterances else utterances
    ⟨p.1, utterances, p.2.step⟩

/-- `load_task_config(fn)`: defaults, classifier validation, task
validation, then partition loading (in that order). -/
def load_task_config (fs : FS) (config : RawConfig) :
    Except ConfigError (Task × List Datasets × List Datasets) := do
  let batch_size := config.batch_size.getD 128
  let context_size := config.context_size.getD 0
  let classifier := config.classifier.getD "logistic"
  if classifier ∉ VALID_CLASSIFIER_NAMES then
    throw (.invalidClassifier classifier VALID_CLASSIFIER_NAMES)
  let task_name := config.task.getD "sad"
  if task_name ∉ VALID_TASK_NAMES then
    throw (.invalidTask task_name VALID_TASK_NAMES)
  let target_labels := TASK_TARGETS task_name
  let task : Task := ⟨task_name, target_labels, context_size, classifier, batch_size⟩
  let train_dsets := loadDsets fs config.train_data false
  let test_dsets := loadDsets fs config.test_data true
  return (task, train_dsets, test_dsets)

/-! ## ContextWindower (`add_context`, lines 284-307) -/

/-- `np.pad(feats, [[w, w], [0, 0]], mode='edge')`: replicate the first
and last row `w` times on either side of the frame axis. -/
def padEdge (feats : List (List ℚ)) (w : ℕ) : List (List ℚ) :=
  List.replicate w (feats.headD []) ++ feats ++ List.replicate w (feats.getLastD [])

/-- `np.roll(a, s, axis=0)`: row `j` of the result is row `(j - s) mod n`
of the input. -/
def roll (a : List (List ℚ)) (s : ℤ) : List (List ℚ) :=
  (List.range a.length).map fun j : ℕ =>
    a.getD ((((j : ℤ) - s) % (a.length : ℤ)).toNat) []

/-- `np.concatenate(mats, axis=1)` for matrices that all have `n` rows. -/
def hconcat (mats : List (List (List ℚ))) (n : ℕ) : List (List ℚ) :=
  (List.range n).map fun j => (mats.map fun m => m.getD j []).flatten

/-- `add_context(feats, win_size)`: edge-pad by `win_size` frames, stack
the `2*win_size + 1` rolled copies along the feature axis, then trim the
padding back off (`feats[win_size:-win_size, :]`). -/
def add_context (feats : List (List ℚ)) (win_size : ℕ) : List (List ℚ) :=
  if win_size = 0 then feats
  else
    let padded := padEdge feats win_size
    let inds := (List.range (2 * win_size + 1)).map fun k : ℕ => (k : ℤ) - (win_size : ℤ)
    let stacked := hconcat (inds.map fun ind => roll padded ind) padded.length
    (stacked.drop win_size).take (stacked.length - 2 * win_size)

/-- Edge-replication index: the clamp of `j` into `[0, n-1]`, as used by
edge padding (out-of-range frame indices fall back to the nearest real
frame). -/
def clampIdx (j : ℤ) (n : ℕ) : ℕ := (max 0 (min j ((n : ℤ) - 1))).toNat

/-! ## SegmentLabeler (`_get_feats_targets`, lines 226-245) -/

/-- A pyannote `Segment`, as a `(start, end)` pair of seconds. -/
abbrev Seg := ℚ × ℚ

/-- The order by which a pyannote `Timeline`'s sorted set arranges its
segments: lexicographic by `(start, end)`. -/
def segLE (a b : Seg) : Prop := a.1 < b.1 ∨ (a.1 = b.1 ∧ a.2 ≤ b.2)

instance : DecidableRel segLE := fun a b => by unfold segLE; infer_instance

instance : IsTotal Seg segLE :=
  ⟨fun a b => by
    unfold segLE
    rcases lt_trichotomy a.1 b.1 with h | h | h
    · exact Or.inl (Or.inl h)
    · rcases le_total a.2 b.2 with h2 | h2
      · exact Or.inl (Or.inr ⟨h, h2⟩)
      · exact Or.inr (Or.inr ⟨h.symm, h2⟩)
    · exact Or.inr (Or.inl h)⟩

instance : IsTrans Seg segLE :=
  ⟨fun a b c hab hbc => by
    unfold segLE at *
    rcases hab with h | ⟨h, h2⟩ <;> rcases hbc with h' | ⟨h', h2'⟩
    · exact Or.inl (h.trans h')
    · exact Or.inl (h' ▸ h)
    · exact Or.inl (h ▸ h')
    · exact Or.inr ⟨h.trans h', h2.trans h2'⟩⟩

/-- `Timeline([...])`: a sorted set of the non-empty segments (a pyannote
segment with `duration <= 0` is falsy and excluded). -/
def timelineOf (segs : List Seg) : List Seg :=
  List.insertionSort segLE ((segs.filter fun s => decide (s.1 < s.2)).dedup)

/-- One step of `Timeline.support()`: with segments arriving in sorted
order, the running segment `cur` absorbs the next segment `s` whenever
the gap between them is empty (`s.start <= cur.end`, i.e. they overlap or
are adjacent), extending to the union hull; otherwise `cur` is emitted. -/
def supportGo (cur : Seg) : List Seg → List Seg
  | [] => [cur]
  | s :: rest =>
    if s.1 ≤ cur.2 then supportGo (cur.1, max cur.2 s.2) rest
    else cur :: supportGo s rest

/-- `Timeline.support()` on an already-sorted segment list. -/
def support (segs : List Seg) : List Seg :=
  match segs with
  | [] => []
  | s :: rest => supportGo s rest

/-- `times = np.arange(n) * step`. -/
def frameTimes (n : ℕ) (step : ℚ) : List ℚ :=
  (List.range n).map fun i : ℕ => (i : ℚ) * step

/-- `np.searchsorted(times, v)` (default `side='left'`) on the sorted
frame-time array: the insertion position of `v`, i.e. the number of
entries strictly below `v`. -/
def searchsorted (times : List ℚ) (v : ℚ) : ℕ :=
  times.countP fun t => decide (t < v)

/-- `targets[bi:ei+1] = 1`: the slice assignment clamps to the array's
bounds and never changes its length. -/
def markSegment (targets : List ℕ) (bi ei : ℕ) : List ℕ :=
  targets.mapIdx fun i x => if bi ≤ i ∧ i ≤ ei then 1 else x

/-- The marking loop: `targets = np.zeros_like(times)`, then for each
merged segment, `bi, ei = np.searchsorted(times, (seg.start, seg.end))`
and `targets[bi:ei+1] = 1`. -/
def assignTargets (times : List ℚ) (tl : List Seg) : List ℕ :=
  tl.foldl
    (fun tg s => markSegment tg (searchsorted times s.1) (searchsorted times s.2))
    (List.replicate times.length 0)

/-- `_get_feats_targets(utt, step, context_size, target_labels)`: load
the features, add context, build the merged timeline of the
target-labelled segments, and mark the frames. -/
def _get_feats_targets (fs : FS) (utt : Utterance) (step : ℚ) (context_size : ℕ)
    (target_labels : List String) : List (List ℚ) × List ℕ :=
  let feats := add_context (fs.npyOf utt.feats_path) context_size
  let times := frameTimes feats.length step
  let segs := (fs.labOf utt.phones_path).filter fun r => decide (r.label ∈ target_labels)
  let speech_t := support (timelineOf (segs.map fun r => (r.onset, r.offset)))
  (feats, assignTargets times speech_t)

/-- The merged timeline `_get_feats_targets` builds for an utterance:
filter the annotation rows to the target labels, form the pyannote
`Timeline`, and take its support (lines 233-240). -/
def uttTimeline (fs : FS) (utt : Utterance) (target_labels : List String) : List Seg :=
  support (timelineOf
    (((fs.labOf utt.phones_path).filter fun r => decide (r.label ∈ target_labels)).map
      fun r => (r.onset, r.offset)))

/-- The frame-time array `_get_feats_targets` builds:
`times = np.arange(len(feats)) * step` after context augmentation
(line 230). -/
def uttTimes (fs : FS) (utt : Utterance) (step : ℚ) (context_size : ℕ) : List ℚ :=
  frameTimes (add_context (fs.npyOf utt.feats_path) context_size).length step

/-! ## ParallelFeatureExtractor (`get_feats_targets`, lines 248-281) -/

/-- `feats, targets = zip(*res)`: transposing zero per-utterance results
yields zero values, and unpacking them into two variables raises a
`ValueError`. -/
def zipStarUnpack2 {α β : Type} (res : List (α × β)) : Except String (List α × List β) :=
  match res with
  | [] => .error "not enough values to unpack (expected 2, got 0)"
  | _ => .ok res.unzip

/-- `get_feats_targets(utterances, step, context_size, target_labels)`:
map `_get_feats_targets` over the utterances (the worker pool computes
exactly this list), unpack, and concatenate row-wise in input order. -/
def get_feats_targets (fs : FS) (utterances : List Utterance) (step : ℚ)
    (context_size : ℕ) (target_labels : List String) :
    Except String (List (List ℚ) × List ℕ) := do
  let res := utterances.map fun u => _get_feats_targets fs u step context_size target_labels
  let (feats, targets) ← zipStarUnpack2 res
  return (feats.flatten, targets.flatten)

/-! ## Class weights (`main`, lines 339-342) -/

/-- `pos_freq = targets.mean()` for a 0/1 target vector. -/
def pos_freq (targets : List ℕ) : ℚ :=
  (targets.count 1 : ℚ) / (targets.length : ℚ)

/-- `weights = np.array([1 - pos_freq, pos_freq]); weights = 1 / weights;
weights /= weights.sum()`. -/
def classWeights (targets : List ℕ) : ℚ × ℚ :=
  let p := pos_freq targets
  let w : ℚ × ℚ := (1 / (1 - p), 1 / p)
  let s := w.1 + w.2
  (w.1 / s, w.2 / s)

/-- The class-weight vector as the spec words it: per-class reciprocal
empirical frequencies, renormalized to sum to 1 (class 0 first). -/
def specClassWeights (targets : List ℕ) : ℚ × ℚ :=
  let f0 := (targets.count 0 : ℚ) / (targets.length : ℚ)
  let f1 := (targets.count 1 : ℚ) / (targets.length : ℚ)
  let s := 1 / f0 + 1 / f1
  (1 / f0 / s, 1 / f1 / s)

/-! ## TrainEvalOrchestrator score table (`main`, lines 359-378) -/

/-- The `(train, test)` keys of the emitted score records, in emission
order: `for train_dset_name in sorted(models)` (the training-partition
names, sorted) nested over `for test_dset_name in test_data` (the
test-partition names in insertion order). -/
def scoreTable (trainNames testNames : List String) : List (String × String) :=
  (List.insertionSort strLE trainNames).flatMap
    fun tr => testNames.map fun te => (tr, te)

/-! ## Concrete instances used by scenarios and witnesses -/

/-- The annotation rows of the spec's labelling scenario:
`[(0.0, 0.1, "sil"), (0.1, 0.4, "aa"), (0.4, 0.5, "sil")]`. -/
def scenarioRows : List Row :=
  [⟨0, 1/10, "sil"⟩, ⟨1/10, 4/10, "aa"⟩, ⟨4/10, 5/10, "sil"⟩]

/-- A filesystem holding one 5-frame utterance annotated by
`scenarioRows`. -/
def scenarioFS : FS :=
  ⟨fun _ => true, fun _ => [], fun _ => List.replicate 5 [0], fun _ => scenarioRows⟩

def scenarioUtt : Utterance := ⟨"utt", "utt.npy", "utt.lab"⟩

/-- A filesystem whose URI lists name `b` before `a`, with every file
present; used to observe catalog order before any sorting. -/
def unsortedFS : FS :=
  ⟨fun _ => true, fun _ => ["b", "a"], fun _ => [], fun _ => []⟩

def witnessSpec : DsetSpec := ⟨"u.txt", "fdir", "pdir", 1/100⟩

/-- A filesystem where only the URI `good` has both of its files. -/
def partialFS : FS :=
  ⟨fun p => p == "fdir/good.npy" || p == "pdir/good.lab",
   fun _ => ["good", "missing"], fun _ => [], fun _ => []⟩

/-- A config document with an unrecognized classifier name. -/
def badClassifierConfig : RawConfig :=
  ⟨none, none, some "svm", none, [("tr", witnessSpec)], [("te", witnessSpec)]⟩

/-- A config document with a valid classifier but an unrecognized task
name. -/
def badTaskConfig : RawConfig :=
  ⟨none, none, some "logistic", some "phoneme", [("tr", witnessSpec)], [("te", witnessSpec)]⟩

/-- The per-row content claim C2 asserts for `add_context`, modelled from
the claim's words: output row `i` is the concatenation of the input rows
at indices `i + d` for offsets `d` ranging over `[-w, +w]` in ascending
order, with out-of-range indices clamped to the nearest real frame. -/
def add_context_claimed (feats : List (List ℚ)) (w : ℕ) : List (List ℚ) :=
  (List.range feats.length).map fun i : ℕ =>
    ((List.range (2 * w + 1)).map fun k : ℕ =>
      feats.getD (clampIdx ((i : ℤ) + ((k : ℤ) - (w : ℤ))) feats.length) []).flatten

section Proofs

attribute [local semireducible] Rat.add Rat.mul Rat.sub Rat.inv

theorem _get_feats_targets_eq (fs : FS) (utt : Utterance) (step : ℚ) (context_size : ℕ)
    (target_labels : List String) :
    _get_feats_targets fs utt step context_size target_labels =
      (add_context (fs.npyOf utt.feats_path) context_size,
        assignTargets (uttTimes fs utt step context_size)
          (uttTimeline fs utt target_labels)) := rfl

/-! ### Marking-loop lemmas (SegmentLabeler) -/

theorem length_markSegment (tg : List ℕ) (bi ei : ℕ) :
    (markSegment tg bi ei).length = tg.length := by
  simp [markSegment]

theorem getD_markSegment (tg : List ℕ) (bi ei i : ℕ) (hi : i < tg.length) :
    (markSegment tg bi ei).getD i 0 =
      if bi ≤ i ∧ i ≤ ei then 1 else tg.getD i 0 := by
  rw [List.getD_eq_getElem _ _ (by rw [length_markSegment]; exact hi),
    List.getD_eq_getElem _ _ hi]
  simp only [markSegment, List.getElem_mapIdx]

theorem mem_markSegment {tg : List ℕ} {bi ei : ℕ} {x : ℕ} (hx : x ∈ markSegment tg bi ei) :
    x = 1 ∨ x ∈ tg := by
  rw [List.mem_iff_getElem] at hx
  obtain ⟨i, hi, rfl⟩ := hx
  simp only [markSegment, List.getElem_mapIdx]
  by_cases h : bi ≤ i ∧ i ≤ ei
  · simp [h]
  · right
    rw [if_neg h]
    exact List.getElem_mem _

theorem length_markLoop (times : List ℚ) (tl : List Seg) (tg : List ℕ) :
    (tl.foldl (fun tg s =>
      markSegment tg (searchsorted times s.1) (searchsorted times s.2)) tg).length =
      tg.length := by
  induction tl generalizing tg with
  | nil => rfl
  | cons s tl ih => rw [List.foldl_cons, ih, length_markSegment]

theorem length_assignTargets (times : List ℚ) (tl : List Seg) :
    (assignTargets times tl).length = times.length := by
  rw [assignTargets, length_markLoop, List.length_replicate]

theorem getD_markLoop (times : List ℚ) (tl : List Seg) (tg : List ℕ) (i : ℕ)
    (hi : i < tg.length) :
    ((tl.foldl (fun tg s =>
        markSegment tg (searchsorted times s.1) (searchsorted times s.2)) tg).getD i 0 = 1 ↔
      (∃ s ∈ tl, searchsorted times s.1 ≤ i ∧ i ≤ searchsorted times s.2) ∨
        tg.getD i 0 = 1) := by
  induction tl generalizing tg with
  | nil => simp
  | cons s tl ih =>
    rw [List.foldl_cons, ih _ (by rw [length_markSegment]; exact hi),
      getD_markSegment _ _ _ _ hi]
    constructor
    · rintro (⟨s', hs', hc⟩ | hmark)
      · exact Or.inl ⟨s', List.mem_cons_of_mem _ hs', hc⟩
      · by_cases h : searchsorted times s.1 ≤ i ∧ i ≤ searchsorted times s.2
        · exact Or.inl ⟨s, List.mem_cons_self _ _, h⟩
        · rw [if_neg h] at hmark
          exact Or.inr hmark
    · rintro (⟨s', hs', hc⟩ | htg)
      · rcases List.mem_cons.mp hs' with rfl | hmem
        · exact Or.inr (if_pos hc)
        · exact Or.inl ⟨s', hmem, hc⟩
      · right
        by_cases h : searchsorted times s.1 ≤ i ∧ i ≤ searchsorted times s.2
        · exact if_pos h
        · rw [if_neg h]
          exact htg

theorem getD_replicate_zero (n i : ℕ) : (List.replicate n (0 : ℕ)).getD i 0 = 0 := by
  by_cases h : i < n
  · rw [List.getD_eq_getElem _ _ (by simpa using h), List.getElem_replicate]
  · rw [List.getD_eq_default _ _ (by simpa using Nat.le_of_not_lt h)]

theorem getD_assignTargets (times : List ℚ) (tl : List Seg) (i : ℕ)
    (hi : i < times.length) :
    ((assignTargets times tl).getD i 0 = 1 ↔
      ∃ s ∈ tl, searchsorted times s.1 ≤ i ∧ i ≤ searchsorted times s.2) := by
  rw [assignTargets, getD_markLoop _ _ _ _ (by simpa using hi), getD_replicate_zero]
  simp

theorem mem_markLoop (times : List ℚ) (tl : List Seg) (tg : List ℕ)
    (htg : ∀ x ∈ tg, x = 0 ∨ x = 1) :
    ∀ x ∈ tl.foldl (fun tg s =>
      markSegment tg (searchsorted times s.1) (searchsorted times s.2)) tg,
      x = 0 ∨ x = 1 := by
  induction tl generalizing tg with
  | nil => exact htg
  | cons s tl ih =>
    rw [List.foldl_cons]
    refine ih _ fun x hx => ?_
    rcases mem_markSegment hx with h | h
    · exact Or.inr h
    · exact htg x h

/-- C10: for every utterance, the target vector has exactly one entry per
frame of the context-augmented feature array and every entry is 0 or 1:
the inclusive slice write `targets[bi:ei+1] = 1` is clamped to the
array's bounds and never changes its length, wherever the merged
intervals lie. -/
theorem c10_targets_length_binary (fs : FS) (utt : Utterance) (step : ℚ)
    (context_size : ℕ) (target_labels : List String) :
    (_get_feats_targets fs utt step context_size target_labels).2.length =
      (_get_feats_targets fs utt step context_size target_labels).1.length ∧
    ∀ x ∈ (_get_feats_targets fs utt step context_size target_labels).2,
      x = 0 ∨ x = 1 := by
  rw [_get_feats_targets_eq]
  constructor
  · rw [length_assignTargets]
    simp [uttTimes, frameTimes]
  · exact mem_markLoop _ _ _ (by simp)

/-- C1: the labeler marks as positive exactly the frames whose indices
lie in the inclusive range `[bi, ei]` for some interval of the merged
timeline, where `bi`/`ei` are the left `searchsorted` positions of that
interval's start and end in `times[i] = i * frame_step`; and on the
spec's scenario (rows `(0.0, 0.1, sil), (0.1, 0.4, aa), (0.4, 0.5, sil)`,
step `0.1`, vowel targets, 5 frames) the target vector is
`[0, 1, 1, 1, 1]`. -/
theorem c1_frame_marking (fs : FS) (utt : Utterance) (step : ℚ) (context_size : ℕ)
    (target_labels : List String) (i : ℕ)
    (hi : i < (uttTimes fs utt step context_size).length) :
    ((_get_feats_targets fs utt step context_size target_labels).2.getD i 0 = 1 ↔
      ∃ s ∈ uttTimeline fs utt target_labels,
        searchsorted (uttTimes fs utt step context_size) s.1 ≤ i ∧
        i ≤ searchsorted (uttTimes fs utt step context_size) s.2) ∧
    (_get_feats_targets scenarioFS scenarioUtt (1/10) 0 VOWELS).2 = [0, 1, 1, 1, 1] :=
  ⟨getD_assignTargets _ _ _ hi, by decide⟩

theorem c1_frame_marking_witness :
    2 < (uttTimes scenarioFS scenarioUtt (1/10) 0).length ∧
    (((_get_feats_targets scenarioFS scenarioUtt (1/10) 0 VOWELS).2.getD 2 0 = 1 ↔
      ∃ s ∈ uttTimeline scenarioFS scenarioUtt VOWELS,
        searchsorted (uttTimes scenarioFS scenarioUtt (1/10) 0) s.1 ≤ 2 ∧
        2 ≤ searchsorted (uttTimes scenarioFS scenarioUtt (1/10) 0) s.2) ∧
      (_get_feats_targets scenarioFS scenarioUtt (1/10) 0 VOWELS).2 = [0, 1, 1, 1, 1]) :=
  ⟨by decide, c1_frame_marking scenarioFS scenarioUtt (1/10) 0 VOWELS 2 (by decide)⟩

/-- C9: extracting features for an empty utterance list fails (unpacking
zero per-utterance results raises), while any non-empty list yields a
concatenated result — so a partition silently reduced to zero utterances
aborts at extraction time instead of producing empty matrices. -/
theorem c9_empty_partition_errors (fs : FS) (step : ℚ) (context_size : ℕ)
    (target_labels : List String) :
    get_feats_targets fs [] step context_size target_labels =
      .error "not enough values to unpack (expected 2, got 0)" ∧
    ∀ (u : Utterance) (us : List Utterance), ∃ r,
      get_feats_targets fs (u :: us) step context_size target_labels = .ok r :=
  ⟨rfl, fun _ _ => ⟨_, rfl⟩⟩

/-! ### Config validation (C3) -/

/-- C3: an unrecognized classifier name (checked first), or an
unrecognized task name, makes `load_task_config` return a configuration
error carrying the invalid value and the valid set.  The equation holds
for every filesystem `fs` and the error value does not mention `fs`, so
the failure happens before any partition data (URI lists, feature files,
label files) is consulted. -/
theorem c3_config_validation (fs : FS) (config : RawConfig) :
    (config.classifier.getD "logistic" ∉ VALID_CLASSIFIER_NAMES →
      load_task_config fs config = .error
        (.invalidClassifier (config.classifier.getD "logistic") VALID_CLASSIFIER_NAMES)) ∧
    (config.classifier.getD "logistic" ∈ VALID_CLASSIFIER_NAMES →
      config.task.getD "sad" ∉ VALID_TASK_NAMES →
      load_task_config fs config = .error
        (.invalidTask (config.task.getD "sad") VALID_TASK_NAMES)) := by
  constructor
  · intro h
    simp only [load_task_config, h, not_false_iff, if_true]
    rfl
  · intro h1 h2
    simp only [load_task_config, h1, not_true, if_false, h2, not_false_iff, if_true]
    rfl

theorem c3_config_validation_witness :
    ("svm" ∉ VALID_CLASSIFIER_NAMES) ∧
    load_task_config unsortedFS badClassifierConfig =
      .error (.invalidClassifier "svm" VALID_CLASSIFIER_NAMES) ∧
    ("logistic" ∈ VALID_CLASSIFIER_NAMES) ∧ ("phoneme" ∉ VALID_TASK_NAMES) ∧
    load_task_config unsortedFS badTaskConfig =
      .error (.invalidTask "phoneme" VALID_TASK_NAMES) :=
  ⟨by decide, (c3_config_validation unsortedFS badClassifierConfig).1 (by decide),
   by decide, by decide,
   (c3_config_validation unsortedFS badTaskConfig).2 (by decide) (by decide)⟩

/-! ### Class weights (C5) -/

theorem count_zero_add_count_one (l : List ℕ) (hb : ∀ x ∈ l, x = 0 ∨ x = 1) :
    l.count 0 + l.count 1 = l.length := by
  induction l with
  | nil => rfl
  | cons x t ih =>
    have hx := hb x (List.mem_cons_self _ _)
    have ht := ih fun y hy => hb y (List.mem_cons_of_mem _ hy)
    rcases hx with rfl | rfl <;> simp [List.count_cons] <;> omega

theorem weight_formula (p : ℚ) (hp0 : 0 < p) (hp1 : p < 1) :
    (1 / (1 - p)) / (1 / (1 - p) + 1 / p) = p ∧
    (1 / p) / (1 / (1 - p) + 1 / p) = 1 - p := by
  have hp : p ≠ 0 := ne_of_gt hp0
  have h1p : (1 : ℚ) - p ≠ 0 := sub_ne_zero.mpr (ne_of_lt hp1).symm
  constructor
  · field_simp
  · field_simp

theorem classWeights_eq (targets : List ℕ) (hb : ∀ x ∈ targets, x = 0 ∨ x = 1)
    (h0 : 0 ∈ targets) (h1 : 1 ∈ targets) :
    classWeights targets =
      ((targets.count 1 : ℚ) / targets.length,
        (targets.count 0 : ℚ) / targets.length) := by
  have hsum : targets.count 0 + targets.count 1 = targets.length :=
    count_zero_add_count_one targets hb
  have hc0 : 0 < targets.count 0 := List.count_pos_iff.mpr h0
  have hc1 : 0 < targets.count 1 := List.count_pos_iff.mpr h1
  have hnQ : (0 : ℚ) < (targets.length : ℚ) := by
    have hn : 0 < targets.length := by omega
    exact_mod_cast hn
  have hc1Q : (0 : ℚ) < (targets.count 1 : ℚ) := by exact_mod_cast hc1
  have hc0e : (targets.count 0 : ℚ) =
      (targets.length : ℚ) - (targets.count 1 : ℚ) := by
    have hq : ((targets.count 0 : ℕ) : ℚ) + ((targets.count 1 : ℕ) : ℚ) =
        ((targets.length : ℕ) : ℚ) := by exact_mod_cast congrArg (Nat.cast : ℕ → ℚ) hsum
    linarith
  have hne : (targets.length : ℚ) - (targets.count 1 : ℚ) ≠ 0 := by
    rw [← hc0e]
    exact_mod_cast Nat.pos_iff_ne_zero.mp hc0
  have hn0 : (targets.length : ℚ) ≠ 0 := ne_of_gt hnQ
  have hp0 : 0 < (targets.count 1 : ℚ) / (targets.length : ℚ) := div_pos hc1Q hnQ
  have hp1 : (targets.count 1 : ℚ) / (targets.length : ℚ) < 1 := by
    rw [div_lt_one hnQ]
    have hlt : targets.count 1 < targets.length := by omega
    exact_mod_cast hlt
  obtain ⟨hw1, hw2⟩ := weight_formula _ hp0 hp1
  have hf0 : (1 : ℚ) - (targets.count 1 : ℚ) / (targets.length : ℚ) =
      (targets.count 0 : ℚ) / (targets.length : ℚ) := by
    rw [one_sub_div hn0, hc0e]
  simp only [classWeights, pos_freq, Prod.mk.injEq]
  exact ⟨hw1, by rw [hw2, hf0]⟩

theorem specClassWeights_eq (targets : List ℕ) (hb : ∀ x ∈ targets, x = 0 ∨ x = 1)
    (h0 : 0 ∈ targets) (h1 : 1 ∈ targets) :
    specClassWeights targets =
      ((targets.count 1 : ℚ) / targets.length,
        (targets.count 0 : ℚ) / targets.length) := by
  have hsum : targets.count 0 + targets.count 1 = targets.length :=
    count_zero_add_count_one targets hb
  have hc0 : 0 < targets.count 0 := List.count_pos_iff.mpr h0
  have hc1 : 0 < targets.count 1 := List.count_pos_iff.mpr h1
  have hnQ : (0 : ℚ) < (targets.length : ℚ) := by
    have hn : 0 < targets.length := by omega
    exact_mod_cast hn
  have hn0 : (targets.length : ℚ) ≠ 0 := ne_of_gt hnQ
  have hc1Q : (0 : ℚ) < (targets.count 1 : ℚ) := by exact_mod_cast hc1
  have hc0e : (targets.count 0 : ℚ) =
      (targets.length : ℚ) - (targets.count 1 : ℚ) := by
    have hq : ((targets.count 0 : ℕ) : ℚ) + ((targets.count 1 : ℕ) : ℚ) =
        ((targets.length : ℕ) : ℚ) := by exact_mod_cast congrArg (Nat.cast : ℕ → ℚ) hsum
    linarith
  have hp0 : 0 < (targets.count 1 : ℚ) / (targets.length : ℚ) := div_pos hc1Q hnQ
  have hp1 : (targets.count 1 : ℚ) / (targets.length : ℚ) < 1 := by
    rw [div_lt_one hnQ]
    have hlt : targets.count 1 < targets.length := by omega
    exact_mod_cast hlt
  obtain ⟨hw1, hw2⟩ := weight_formula _ hp0 hp1
  have hf0 : (targets.count 0 : ℚ) / (targets.length : ℚ) =
      (1 : ℚ) - (targets.count 1 : ℚ) / (targets.length : ℚ) := by
    rw [one_sub_div hn0, hc0e]
  simp only [specClassWeights, Prod.mk.injEq]
  rw [hf0]
  exact ⟨hw1, by rw [hw2, ← hf0]⟩

/-- C5: for every binary target vector containing both classes, the
class-weight vector computed in `main` equals the per-class reciprocal
empirical frequencies renormalized to sum to 1; its two entries are
nonnegative and sum to 1, and the rarer class's weight is strictly
larger whenever the class frequencies differ. -/
theorem c5_class_weights (targets : List ℕ) (hb : ∀ x ∈ targets, x = 0 ∨ x = 1)
    (h0 : 0 ∈ targets) (h1 : 1 ∈ targets) :
    classWeights targets = specClassWeights targets ∧
    0 ≤ (classWeights targets).1 ∧ 0 ≤ (classWeights targets).2 ∧
    (classWeights targets).1 + (classWeights targets).2 = 1 ∧
    (targets.count 1 < targets.count 0 →
      (classWeights targets).1 < (classWeights targets).2) ∧
    (targets.count 0 < targets.count 1 →
      (classWeights targets).2 < (classWeights targets).1) := by
  have he := classWeights_eq targets hb h0 h1
  have hs := specClassWeights_eq targets hb h0 h1
  have hsum : targets.count 0 + targets.count 1 = targets.length :=
    count_zero_add_count_one targets hb
  have hnQ : (0 : ℚ) < (targets.length : ℚ) := by
    have hn : 0 < targets.length := List.length_pos.mpr (List.ne_nil_of_mem h0)
    exact_mod_cast hn
  have hn0 : (targets.length : ℚ) ≠ 0 := ne_of_gt hnQ
  refine ⟨by rw [he, hs], ?_, ?_, ?_, ?_, ?_⟩ <;> rw [he]
  · exact div_nonneg (by positivity) (le_of_lt hnQ)
  · exact div_nonneg (by positivity) (le_of_lt hnQ)
  · rw [div_add_div_same, ← Nat.cast_add]
    rw [show targets.count 1 + targets.count 0 = targets.length by omega]
    exact div_self hn0
  · intro hlt
    rw [div_lt_div_iff_of_pos_right hnQ]
    exact_mod_cast hlt
  · intro hlt
    rw [div_lt_div_iff_of_pos_right hnQ]
    exact_mod_cast hlt

theorem c5_class_weights_witness :
    (∀ x ∈ [0, 1, 1], x = 0 ∨ x = 1) ∧ 0 ∈ [0, 1, 1] ∧ 1 ∈ [0, 1, 1] ∧
    (classWeights [0, 1, 1] = specClassWeights [0, 1, 1] ∧
      0 ≤ (classWeights [0, 1, 1]).1 ∧ 0 ≤ (classWeights [0, 1, 1]).2 ∧
      (classWeights [0, 1, 1]).1 + (classWeights [0, 1, 1]).2 = 1 ∧
      (List.count 1 [0, 1, 1] < List.count 0 [0, 1, 1] →
        (classWeights [0, 1, 1]).1 < (classWeights [0, 1, 1]).2) ∧
      (List.count 0 [0, 1, 1] < List.count 1 [0, 1, 1] →
        (classWeights [0, 1, 1]).2 < (classWeights [0, 1, 1]).1)) :=
  ⟨by decide, by decide, by decide,
    c5_class_weights [0, 1, 1] (by decide) (by decide) (by decide)⟩

/-! ### Utterance catalog (C6) -/

theorem resolveUri_eq_some {fs : FS} {fd pd uri : String} {u : Utterance}
    (h : resolveUri fs fd pd uri = some u) :
    u.uri = uri ∧ fs.pathExists (fd ++ "/" ++ uri ++ ".npy") = true ∧
      fs.pathExists (pd ++ "/" ++ uri ++ ".lab") = true := by
  simp only [resolveUri] at h
  split at h
  · cases h
    rename_i hc
    rw [Bool.and_eq_true] at hc
    exact ⟨rfl, hc.1, hc.2⟩
  · cases h

theorem resolveUri_some (fs : FS) (fd pd uri : String)
    (h1 : fs.pathExists (fd ++ "/" ++ uri ++ ".npy") = true)
    (h2 : fs.pathExists (pd ++ "/" ++ uri ++ ".lab") = true) :
    resolveUri fs fd pd uri =
      some ⟨uri, fd ++ "/" ++ uri ++ ".npy", pd ++ "/" ++ uri ++ ".lab"⟩ := by
  simp [resolveUri, h1, h2]

theorem countP_resolve_zero (fs : FS) (fd pd uri : String) (l : List String)
    (hni : uri ∉ l) :
    (l.filterMap (resolveUri fs fd pd)).countP (fun u => u.uri == uri) = 0 := by
  induction l with
  | nil => rfl
  | cons a t ih =>
    have hna : a ≠ uri := fun h => hni (h ▸ List.mem_cons_self _ _)
    have hnt : uri ∉ t := fun h => hni (List.mem_cons_of_mem _ h)
    rw [List.filterMap_cons]
    cases hra : resolveUri fs fd pd a with
    | none => exact ih hnt
    | some u =>
      rw [List.countP_cons]
      have hu := (resolveUri_eq_some hra).1
      simp [hu, hna, ih hnt]

theorem countP_resolve_one (fs : FS) (fd pd uri : String) (l : List String)
    (hnd : l.Nodup) (hmem : uri ∈ l)
    (h1 : fs.pathExists (fd ++ "/" ++ uri ++ ".npy") = true)
    (h2 : fs.pathExists (pd ++ "/" ++ uri ++ ".lab") = true) :
    (l.filterMap (resolveUri fs fd pd)).countP (fun u => u.uri == uri) = 1 := by
  induction l with
  | nil => cases hmem
  | cons a t ih =>
    rw [List.filterMap_cons]
    rcases List.mem_cons.mp hmem with rfl | hmt
    · have hnt : uri ∉ t := (List.nodup_cons.mp hnd).1
      rw [resolveUri_some fs fd pd uri h1 h2, List.countP_cons]
      simp [countP_resolve_zero fs fd pd uri t hnt]
    · have hna : a ≠ uri := by
        rintro rfl
        exact (List.nodup_cons.mp hnd).1 hmt
      have ht := ih (List.nodup_cons.mp hnd).2 hmt
      cases hra : resolveUri fs fd pd a with
      | none => exact ht
      | some u =>
        rw [List.countP_cons]
        have hu := (resolveUri_eq_some hra).1
        simp [hu, hna, ht]

/-- C6: an utterance whose feature or label file is missing is absent
from the catalog `load_utterances` returns (the function is total, so the
omission raises nothing and an empty catalog is a legal result), while a
listed URI with both files present contributes exactly one record. -/
theorem c6_catalog_missing_files (fs : FS) (uris_file feats_dir phones_dir uri : String) :
    ((fs.pathExists (feats_dir ++ "/" ++ uri ++ ".npy") = false ∨
      fs.pathExists (phones_dir ++ "/" ++ uri ++ ".lab") = false) →
      ∀ u ∈ load_utterances fs uris_file feats_dir phones_dir, u.uri ≠ uri) ∧
    (uri ∈ fs.urisOf uris_file →
      fs.pathExists (feats_dir ++ "/" ++ uri ++ ".npy") = true →
      fs.pathExists (phones_dir ++ "/" ++ uri ++ ".lab") = true →
      (load_utterances fs uris_file feats_dir phones_dir).countP
        (fun u => u.uri == uri) = 1) := by
  constructor
  · intro hmiss u hu heq
    rcases List.mem_filterMap.mp hu with ⟨a, _, hra⟩
    obtain ⟨huri, hp1, hp2⟩ := resolveUri_eq_some hra
    have ha : a = uri := by rw [← huri, heq]
    subst ha
    rcases hmiss with h | h
    · rw [hp1] at h
      cases h
    · rw [hp2] at h
      cases h
  · intro hm h1 h2
    exact countP_resolve_one fs feats_dir phones_dir uri _
      (fs.urisOf uris_file).nodup_dedup (List.mem_dedup.mpr hm) h1 h2

theorem c6_catalog_missing_files_witness :
    (partialFS.pathExists ("fdir" ++ "/" ++ "missing" ++ ".npy") = false ∨
      partialFS.pathExists ("pdir" ++ "/" ++ "missing" ++ ".lab") = false) ∧
    (∀ u ∈ load_utterances partialFS "u.txt" "fdir" "pdir", u.uri ≠ "missing") ∧
    ("good" ∈ partialFS.urisOf "u.txt" ∧
      (load_utterances partialFS "u.txt" "fdir" "pdir").countP
        (fun u => u.uri == "good") = 1) :=
  ⟨by decide,
   (c6_catalog_missing_files partialFS "u.txt" "fdir" "pdir" "missing").1 (by decide),
   by decide,
   (c6_catalog_missing_files partialFS "u.txt" "fdir" "pdir" "good").2
     (by decide) (by decide) (by decide)⟩

/-! ### Test-partition sorting (C8) -/

/-- C8: every test partition's utterance list is sorted by URI (in
Python's code-point order), while no such sort is applied to training
partitions — witnessed by a training partition whose catalog comes out
in unsorted order. -/
theorem c8_test_sorted_only (fs : FS) (d : List (String × DsetSpec)) :
    (∀ ds ∈ loadDsets fs d true,
      (ds.utterances.map Utterance.uri).Sorted strLE) ∧
    ∃ ds ∈ loadDsets unsortedFS [("tr", witnessSpec)] false,
      ¬ (ds.utterances.map Utterance.uri).Sorted strLE := by
  constructor
  · intro ds hds
    rcases List.mem_map.mp hds with ⟨p, _, rfl⟩
    show ((sortByUri _).map Utterance.uri).Pairwise strLE
    rw [List.pairwise_map]
    haveI : IsTotal Utterance fun a b => strLE a.uri b.uri :=
      ⟨fun a b => @IsTotal.total String strLE _ a.uri b.uri⟩
    haveI : IsTrans Utterance fun a b => strLE a.uri b.uri :=
      ⟨fun a b c hab hbc => @IsTrans.trans String strLE _ a.uri b.uri c.uri hab hbc⟩
    exact List.sorted_insertionSort _ _
  · decide

theorem c8_test_sorted_only_witness :
    (⟨"te", [⟨"a", "fdir/a.npy", "pdir/a.lab"⟩, ⟨"b", "fdir/b.npy", "pdir/b.lab"⟩],
        1/100⟩ : Datasets) ∈ loadDsets unsortedFS [("te", witnessSpec)] true ∧
    ((⟨"te", [⟨"a", "fdir/a.npy", "pdir/a.lab"⟩, ⟨"b", "fdir/b.npy", "pdir/b.lab"⟩],
        1/100⟩ : Datasets).utterances.map Utterance.uri).Sorted strLE :=
  ⟨by decide,
   (c8_test_sorted_only unsortedFS [("te", witnessSpec)]).1 _ (by decide)⟩

/-! ### Score table (C4) -/

theorem pairwise_of_true {α : Type} {r : α → α → Prop} (h : ∀ a b, r a b) :
    ∀ l : List α, l.Pairwise r := by
  intro l
  induction l with
  | nil => exact List.Pairwise.nil
  | cons a t ih => exact List.Pairwise.cons (fun b _ => h a b) ih

/-- C4: with pairwise-distinct training and test partition names, the
emitted score records have exactly one `(train, test)` key per ordered
pair (`m * n` records, no duplicate key), and the records are emitted
with the training partitions iterated in sorted-by-name order. -/
theorem c4_score_table (trainNames testNames : List String)
    (h1 : trainNames.Nodup) (h2 : testNames.Nodup) :
    (scoreTable trainNames testNames).length = trainNames.length * testNames.length ∧
    (scoreTable trainNames testNames).Nodup ∧
    ((scoreTable trainNames testNames).map Prod.fst).Sorted strLE := by
  refine ⟨?_, ?_, ?_⟩
  · rw [scoreTable, List.length_flatMap]
    simp [Function.comp_def, List.map_const', List.sum_replicate, smul_eq_mul]
  · rw [scoreTable, List.nodup_flatMap]
    constructor
    · intro tr _
      exact h2.map fun x y hxy => congrArg Prod.snd hxy
    · have hnd : (List.insertionSort strLE trainNames).Nodup :=
        (List.perm_insertionSort strLE trainNames).nodup_iff.mpr h1
      refine hnd.imp ?_
      intro a b hab x hxa hxb
      rcases List.mem_map.mp hxa with ⟨ta, _, rfl⟩
      rcases List.mem_map.mp hxb with ⟨tb, _, heq⟩
      exact hab (congrArg Prod.fst heq.symm)
  · show ((scoreTable trainNames testNames).map Prod.fst).Pairwise strLE
    rw [List.pairwise_map, scoreTable, List.pairwise_flatMap]
    constructor
    · intro a _
      rw [List.pairwise_map]
      exact pairwise_of_true (fun _ _ => refl_of strLE a) testNames
    · have hs : (List.insertionSort strLE trainNames).Pairwise strLE :=
        List.sorted_insertionSort strLE trainNames
      refine hs.imp ?_
      intro a b hab
      intro x hx y hy
      rcases List.mem_map.mp hx with ⟨ta, _, rfl⟩
      rcases List.mem_map.mp hy with ⟨tb, _, rfl⟩
      exact hab

theorem c4_score_table_witness :
    (["b", "a"] : List String).Nodup ∧ (["c"] : List String).Nodup ∧
    ((scoreTable ["b", "a"] ["c"]).length =
        (["b", "a"] : List String).length * (["c"] : List String).length ∧
      (scoreTable ["b", "a"] ["c"]).Nodup ∧
      ((scoreTable ["b", "a"] ["c"]).map Prod.fst).Sorted strLE) :=
  ⟨by decide, by decide, c4_score_table ["b", "a"] ["c"] (by decide) (by decide)⟩

/-! ### Timeline support (C7) -/

theorem supportGo_props (rest : List Seg) : ∀ cur : Seg,
    cur.1 < cur.2 → (∀ s ∈ rest, s.1 < s.2) →
    rest.Pairwise (fun a b : Seg => a.1 ≤ b.1) →
    (∀ s ∈ rest, cur.1 ≤ s.1) →
    (∀ t ∈ supportGo cur rest, cur.1 ≤ t.1 ∧ t.1 < t.2) ∧
      (supportGo cur rest).Pairwise (fun a b : Seg => a.2 < b.1) ∧
      ∀ x : ℚ, (∃ t ∈ supportGo cur rest, t.1 ≤ x ∧ x ≤ t.2) ↔
        ((cur.1 ≤ x ∧ x ≤ cur.2) ∨ ∃ s ∈ rest, s.1 ≤ x ∧ x ≤ s.2) := by
  induction rest with
  | nil =>
    intro cur hcur _ _ _
    simp only [supportGo]
    refine ⟨?_, List.pairwise_singleton _ _, ?_⟩
    · intro t ht
      rw [List.mem_singleton] at ht
      subst ht
      exact ⟨le_refl _, hcur⟩
    · intro x
      simp
  | cons s rest ih =>
    intro cur hcur hne hsort hlb
    have hs2 : s.1 < s.2 := hne s (List.mem_cons_self _ _)
    have hrest_ne : ∀ t ∈ rest, t.1 < t.2 := fun t ht => hne t (List.mem_cons_of_mem _ ht)
    have hrest_sort : rest.Pairwise (fun a b : Seg => a.1 ≤ b.1) :=
      (List.pairwise_cons.mp hsort).2
    have hs_lb : ∀ t ∈ rest, s.1 ≤ t.1 := (List.pairwise_cons.mp hsort).1
    have hcs : cur.1 ≤ s.1 := hlb s (List.mem_cons_self _ _)
    simp only [supportGo]
    by_cases hm : s.1 ≤ cur.2
    · rw [if_pos hm]
      have hcur' : (cur.1, max cur.2 s.2).1 < (cur.1, max cur.2 s.2).2 :=
        lt_of_lt_of_le hcur (le_max_left _ _)
      have hlb' : ∀ t ∈ rest, (cur.1, max cur.2 s.2).1 ≤ t.1 :=
        fun t ht => le_trans hcs (hs_lb t ht)
      obtain ⟨ih1, ih2, ih3⟩ := ih _ hcur' hrest_ne hrest_sort hlb'
      refine ⟨fun t ht => ih1 t ht, ih2, ?_⟩
      intro x
      rw [ih3 x]
      constructor
      · rintro (⟨hx1, hx2⟩ | ⟨t, ht, hx⟩)
        · by_cases hxc : x ≤ cur.2
          · exact Or.inl ⟨hx1, hxc⟩
          · rcases le_max_iff.mp hx2 with h | h
            · exact absurd h hxc
            · exact Or.inr ⟨s, List.mem_cons_self _ _,
                le_of_lt (lt_of_le_of_lt hm (lt_of_not_le hxc)), h⟩
        · exact Or.inr ⟨t, List.mem_cons_of_mem _ ht, hx⟩
      · rintro (⟨hx1, hx2⟩ | ⟨t, ht, hx1, hx2⟩)
        · exact Or.inl ⟨hx1, le_trans hx2 (le_max_left _ _)⟩
        · rcases List.mem_cons.mp ht with rfl | hmem
          · exact Or.inl ⟨le_trans hcs hx1, le_trans hx2 (le_max_right _ _)⟩
          · exact Or.inr ⟨t, hmem, hx1, hx2⟩
    · rw [if_neg hm]
      have hm' : cur.2 < s.1 := lt_of_not_le hm
      obtain ⟨ih1, ih2, ih3⟩ := ih s hs2 hrest_ne hrest_sort hs_lb
      refine ⟨?_, ?_, ?_⟩
      · intro t ht
        rcases List.mem_cons.mp ht with rfl | hmem
        · exact ⟨le_refl _, hcur⟩
        · obtain ⟨ht1, ht2⟩ := ih1 t hmem
          exact ⟨le_trans hcs ht1, ht2⟩
      · rw [List.pairwise_cons]
        exact ⟨fun t ht => lt_of_lt_of_le hm' (ih1 t ht).1, ih2⟩
      · intro x
        constructor
        · rintro ⟨t, ht, hx⟩
          rcases List.mem_cons.mp ht with rfl | hmem
          · exact Or.inl hx
          · rcases (ih3 x).mp ⟨t, hmem, hx⟩ with h | ⟨t', ht', hx'⟩
            · exact Or.inr ⟨s, List.mem_cons_self _ _, h⟩
            · exact Or.inr ⟨t', List.mem_cons_of_mem _ ht', hx'⟩
        · rintro (hx | ⟨t, ht, hx⟩)
          · exact ⟨cur, List.mem_cons_self _ _, hx⟩
          · rcases List.mem_cons.mp ht with rfl | hmem
            · rcases (ih3 x).mpr (Or.inl hx) with ⟨t', ht', hx'⟩
              exact ⟨t', List.mem_cons_of_mem _ ht', hx'⟩
            · rcases (ih3 x).mpr (Or.inr ⟨t, hmem, hx⟩) with ⟨t', ht', hx'⟩
              exact ⟨t', List.mem_cons_of_mem _ ht', hx'⟩

theorem mem_timelineOf {segs : List Seg} {t : Seg} :
    t ∈ timelineOf segs ↔ t ∈ segs ∧ t.1 < t.2 := by
  rw [timelineOf, List.mem_insertionSort, List.mem_dedup, List.mem_filter]
  simp

theorem timelineOf_sorted (segs : List Seg) :
    (timelineOf segs).Pairwise (fun a b : Seg => a.1 ≤ b.1) := by
  have hs : (timelineOf segs).Pairwise segLE := List.sorted_insertionSort segLE _
  refine hs.imp ?_
  intro a b hab
  rcases hab with h | ⟨h, _⟩
  · exact le_of_lt h
  · exact le_of_eq h

/-- C7: the merged timeline built from any filtered segment list consists
of pairwise non-overlapping intervals ordered by start time, and covers
exactly the union of the (non-empty) input segments: a pyannote segment
with `duration <= 0` is empty and contributes nothing. -/
theorem c7_support_invariants (segs : List Seg) :
    (support (timelineOf segs)).Pairwise (fun a b : Seg => a.2 < b.1) ∧
    (support (timelineOf segs)).Pairwise (fun a b : Seg => a.1 < b.1) ∧
    ∀ x : ℚ, (∃ t ∈ support (timelineOf segs), t.1 ≤ x ∧ x ≤ t.2) ↔
      ∃ s ∈ segs, s.1 < s.2 ∧ s.1 ≤ x ∧ x ≤ s.2 := by
  cases htl : timelineOf segs with
  | nil =>
    simp only [support]
    refine ⟨List.Pairwise.nil, List.Pairwise.nil, ?_⟩
    intro x
    constructor
    · rintro ⟨t, ht, _⟩
      cases ht
    · rintro ⟨s, hs, hlt, _⟩
      have hmem : s ∈ timelineOf segs := mem_timelineOf.mpr ⟨hs, hlt⟩
      rw [htl] at hmem
      cases hmem
  | cons c rest =>
    have hmem' : ∀ t, t ∈ c :: rest → t ∈ segs ∧ t.1 < t.2 := by
      intro t ht
      rw [← htl] at ht
      exact mem_timelineOf.mp ht
    have hsort : (c :: rest).Pairwise (fun a b : Seg => a.1 ≤ b.1) := by
      rw [← htl]
      exact timelineOf_sorted segs
    have hc : c.1 < c.2 := (hmem' c (List.mem_cons_self _ _)).2
    obtain ⟨p1, p2, p3⟩ := supportGo_props rest c hc
      (fun t ht => (hmem' t (List.mem_cons_of_mem _ ht)).2)
      (List.pairwise_cons.mp hsort).2 (List.pairwise_cons.mp hsort).1
    simp only [support]
    refine ⟨p2, ?_, ?_⟩
    · refine p2.imp_of_mem ?_
      intro a b ha _ hab
      exact lt_trans (p1 a ha).2 hab
    · intro x
      rw [p3 x]
      constructor
      · rintro (hx | ⟨t, ht, hx⟩)
        · obtain ⟨hcs, hclt⟩ := hmem' c (List.mem_cons_self _ _)
          exact ⟨c, hcs, hclt, hx⟩
        · obtain ⟨hts, htlt⟩ := hmem' t (List.mem_cons_of_mem _ ht)
          exact ⟨t, hts, htlt, hx⟩
      · rintro ⟨s, hs, hlt, hx⟩
        have hmem : s ∈ timelineOf segs := mem_timelineOf.mpr ⟨hs, hlt⟩
        rw [htl] at hmem
        rcases List.mem_cons.mp hmem with rfl | hmem
        · exact Or.inl hx
        · exact Or.inr ⟨s, hmem, hx⟩

/-! ### Context windowing (C2) -/

theorem clampIdx_eq (j : ℤ) (n : ℕ) :
    clampIdx j n = (max 0 (min j ((n : ℤ) - 1))).toNat := rfl

theorem getD_range_map {α : Type} (f : ℕ → α) (n j : ℕ) (d : α) :
    ((List.range n).map f).getD j d = if j < n then f j else d := by
  rw [List.getD_eq_getElem?_getD]
  by_cases h : j < n
  · simp [List.getElem?_map, List.getElem?_range, h]
  · rw [List.getElem?_eq_none (by simpa using Nat.le_of_not_lt h), if_neg h]
    rfl

theorem length_padEdge (feats : List (List ℚ)) (w : ℕ) :
    (padEdge feats w).length = feats.length + 2 * w := by
  simp [padEdge]
  omega

theorem getD_padEdge (feats : List (List ℚ)) (w j : ℕ) (hne : feats ≠ [])
    (hj : j < feats.length + 2 * w) :
    (padEdge feats w).getD j [] =
      feats.getD (clampIdx ((j : ℤ) - (w : ℤ)) feats.length) [] := by
  have hn : 0 < feats.length := List.length_pos.mpr hne
  rw [padEdge, List.getD_eq_getElem?_getD, List.getD_eq_getElem?_getD,
    List.getElem?_append]
  simp only [List.length_append, List.length_replicate]
  by_cases h1 : j < w + feats.length
  · rw [if_pos h1, List.getElem?_append]
    simp only [List.length_replicate]
    by_cases h2 : j < w
    · rw [if_pos h2, List.getElem?_replicate, if_pos h2, Option.getD_some]
      have hc : clampIdx ((j : ℤ) - (w : ℤ)) feats.length = 0 := by
        rw [clampIdx_eq]
        omega
      rw [hc]
      cases feats with
      | nil => exact absurd rfl hne
      | cons a t => simp
    · rw [if_neg h2]
      have hc : clampIdx ((j : ℤ) - (w : ℤ)) feats.length = j - w := by
        rw [clampIdx_eq]
        omega
      rw [hc]
  · rw [if_neg h1, List.getElem?_replicate, if_pos (by omega), Option.getD_some]
    have hc : clampIdx ((j : ℤ) - (w : ℤ)) feats.length = feats.length - 1 := by
      rw [clampIdx_eq]
      omega
    rw [hc, List.getLastD_eq_getLast?, List.getLast?_eq_getElem?,
      ← List.getD_eq_getElem?_getD]

theorem getD_roll (a : List (List ℚ)) (s : ℤ) (j : ℕ) (hj : j < a.length) :
    (roll a s).getD j [] =
      a.getD ((((j : ℤ) - s) % (a.length : ℤ)).toNat) [] := by
  rw [roll, getD_range_map, if_pos hj]

theorem length_hconcat (mats : List (List (List ℚ))) (n : ℕ) :
    (hconcat mats n).length = n := by
  simp [hconcat]

theorem getD_hconcat (mats : List (List (List ℚ))) (n j : ℕ) (hj : j < n) :
    (hconcat mats n).getD j [] = (mats.map fun m => m.getD j []).flatten := by
  rw [hconcat, getD_range_map, if_pos hj]

theorem length_add_context (feats : List (List ℚ)) (w : ℕ) :
    (add_context feats w).length = feats.length := by
  by_cases h : w = 0
  · rw [add_context, if_pos h]
  · rw [add_context, if_neg h]
    simp only [List.length_take, List.length_drop, length_hconcat, length_padEdge]
    omega

theorem getD_add_context (feats : List (List ℚ)) (w i : ℕ) (hi : i < feats.length) :
    (add_context feats w).getD i [] =
      ((List.range (2 * w + 1)).map fun k : ℕ =>
        feats.getD (clampIdx ((i : ℤ) + ((w : ℤ) - (k : ℤ))) feats.length) []).flatten := by
  have hne : feats ≠ [] := List.ne_nil_of_length_pos (by omega)
  by_cases hw : w = 0
  · subst hw
    rw [add_context, if_pos rfl]
    have h1 : List.range (2 * 0 + 1) = [0] := rfl
    rw [h1, List.map_cons, List.map_nil, List.flatten_cons, List.flatten_nil,
      List.append_nil]
    congr 1
    rw [clampIdx_eq]
    omega
  · rw [add_context, if_neg hw]
    simp only
    rw [List.getD_eq_getElem?_getD, List.getElem?_take,
      if_pos (by rw [length_hconcat, length_padEdge]; omega), List.getElem?_drop,
      ← List.getD_eq_getElem?_getD,
      getD_hconcat _ _ _ (by rw [length_padEdge]; omega),
      List.map_map, List.map_map]
    congr 1
    refine List.map_congr_left ?_
    intro k hk
    have hk' : k < 2 * w + 1 := List.mem_range.mp hk
    simp only [Function.comp]
    rw [getD_roll _ _ _ (by rw [length_padEdge]; omega), length_padEdge]
    rw [Int.emod_eq_of_lt (by push_cast; omega) (by push_cast; omega)]
    rw [getD_padEdge feats w _ hne (by omega)]
    congr 1
    rw [clampIdx_eq, clampIdx_eq]
    omega

/-- C2 as frozen asserts ascending offset order `d = -w ... +w`; the code
concatenates the rolled copies in the opposite order.  Concretely on the
2-frame, 1-feature array `[[0], [1]]` with `w = 1`, the code returns
`[[1, 0, 0], [1, 1, 0]]`, not the claimed `[[0, 0, 1], [0, 1, 1]]`. -/
theorem c2_counterexample :
    add_context [[(0 : ℚ)], [1]] 1 ≠ add_context_claimed [[(0 : ℚ)], [1]] 1 := by
  decide

/-- C2 (amended): `add_context` keeps the row count, multiplies the
feature dimension by `2w + 1` (identity when `w = 0`), and row `i` is the
concatenation of the input rows at indices `i + d` for offsets `d`
ranging over `[-w, +w]` in DESCENDING order (`d = w - k` for
`k = 0 .. 2w`), with out-of-range indices replaced by edge replication of
the nearest real frame — never by zeros or wrap-around. -/
theorem c2_add_context_amended (feats : List (List ℚ)) (w d : ℕ)
    (hd : ∀ r ∈ feats, r.length = d) :
    (add_context feats w).length = feats.length ∧
    (∀ r ∈ add_context feats w, r.length = d * (2 * w + 1)) ∧
    (w = 0 → add_context feats w = feats) ∧
    ∀ i : ℕ, i < feats.length →
      (add_context feats w).getD i [] =
        ((List.range (2 * w + 1)).map fun k : ℕ =>
          feats.getD (clampIdx ((i : ℤ) + ((w : ℤ) - (k : ℤ))) feats.length) []).flatten := by
  refine ⟨length_add_context feats w, ?_, fun h => by rw [add_context, if_pos h],
    fun i hi => getD_add_context feats w i hi⟩
  intro r hr
  rw [List.mem_iff_getElem] at hr
  obtain ⟨i, hlen, rfl⟩ := hr
  have hi : i < feats.length := by rwa [length_add_context] at hlen
  have hn : 0 < feats.length := by omega
  rw [← List.getD_eq_getElem _ _ hlen, getD_add_context feats w i hi,
    List.length_flatten, List.map_map]
  have hrow : ∀ k ∈ List.range (2 * w + 1),
      (List.length ∘ fun k : ℕ =>
        feats.getD (clampIdx ((i : ℤ) + ((w : ℤ) - (k : ℤ))) feats.length) []) k = d := by
    intro k _
    simp only [Function.comp]
    have hlt : clampIdx ((i : ℤ) + ((w : ℤ) - (k : ℤ))) feats.length < feats.length := by
      rw [clampIdx_eq]
      omega
    rw [List.getD_eq_getElem _ _ hlt]
    exact hd _ (List.getElem_mem _)
  rw [List.map_congr_left hrow, List.map_const', List.sum_replicate, smul_eq_mul,
    List.length_range, Nat.mul_comm]

theorem c2_add_context_amended_witness :
    (∀ r ∈ [[(0 : ℚ)], [1]], r.length = 1) ∧
    ((add_context [[(0 : ℚ)], [1]] 1).length = ([[(0 : ℚ)], [1]] : List (List ℚ)).length ∧
      (∀ r ∈ add_context [[(0 : ℚ)], [1]] 1, r.length = 1 * (2 * 1 + 1)) ∧
      ((1 : ℕ) = 0 → add_context [[(0 : ℚ)], [1]] 1 = [[(0 : ℚ)], [1]]) ∧
      ∀ i : ℕ, i < ([[(0 : ℚ)], [1]] : List (List ℚ)).length →
        (add_context [[(0 : ℚ)], [1]] 1).getD i [] =
          ((List.range (2 * 1 + 1)).map fun k : ℕ =>
            ([[(0 : ℚ)], [1]] : List (List ℚ)).getD
              (clampIdx ((i : ℤ) + ((1 : ℤ) - (k : ℤ)))
                ([[(0 : ℚ)], [1]] : List (List ℚ)).length) []).flatten) :=
  ⟨by decide, c2_add_context_amended [[(0 : ℚ)], [1]] 1 1 (by decide)⟩

end Proofs

end ProbeExp

